import Mathlib

/-!
Shallow embedding of `s3sigv2.go` (package s3sigv2, repository
whats-this/go-aws-auth): AWS S3 signature-version-2 request signing.

Go strings and byte slices are modelled as `List Nat` of byte values
(`GoStr`); for ASCII data a Lean string literal is converted with `gs`.
In this byte-level model Go's `string(b)` conversion of a byte slice is
the identity, so "raw digest bytes reinterpreted as a string" is literal
concatenation of the digest bytes.

The `net/http` header collection is modelled as an association list of
(key, value) pairs together with the `net/textproto` MIME canonical-key
semantics that `http.Header.Set` and `http.Header.Get` use: `Set` stores
under `CanonicalMIMEHeaderKey(key)`, `Get` looks the canonical key up by
exact match.  Ranging over the map is modelled as iterating the list.

`time.Now()` is external input; the already-formatted date string that
`prepareRequest` writes is passed as an explicit `dateNow` parameter.
-/

/-- Go strings / byte slices as lists of byte values. -/
abbrev GoStr := List Nat

/-- ASCII string literal to byte list (all literals used here are ASCII,
where UTF-8 bytes and code points coincide). -/
def gs (s : String) : GoStr := s.data.map Char.toNat

/-- Byte value of the newline character. -/
def nlB : GoStr := [10]

/-- strings.ToLower restricted to bytes: ASCII uppercase mapped to lowercase. -/
def toLowerByte (b : Nat) : Nat := if 65 ≤ b ∧ b ≤ 90 then b + 32 else b

/-- ASCII uppercase of a byte: lowercase letters mapped up. -/
def toUpperByte (b : Nat) : Nat := if 97 ≤ b ∧ b ≤ 122 then b - 32 else b

/-- strings.ToLower on a byte string. -/
def toLowerStr (s : GoStr) : GoStr := s.map toLowerByte

/-- Whitespace bytes trimmed by strings.TrimSpace (ASCII range). -/
def isSpaceByte (b : Nat) : Bool :=
  b == 32 || b == 9 || b == 10 || b == 11 || b == 12 || b == 13

/-- strings.TrimSpace on a byte string. -/
def trimSpace (s : GoStr) : GoStr :=
  ((s.dropWhile isSpaceByte).reverse.dropWhile isSpaceByte).reverse

/-- strings.Replace(v, newline, space, all occurrences): the old and new
substrings are single bytes, so this is a byte map. -/
def replaceNL (s : GoStr) : GoStr := s.map (fun b => if b == 10 then 32 else b)

/-- strings.Split on a single separator byte: auxiliary with accumulator. -/
def splitOnAux (sep : Nat) : GoStr → GoStr → List GoStr
  | [], acc => [acc.reverse]
  | b :: rest, acc =>
    if b == sep then acc.reverse :: splitOnAux sep rest []
    else splitOnAux sep rest (b :: acc)

/-- strings.Split on a single separator byte. -/
def splitOnByte (sep : Nat) (s : GoStr) : List GoStr := splitOnAux sep s []

/-- strings.Join with a separator. -/
def goJoin (sep : GoStr) : List GoStr → GoStr
  | [] => []
  | [x] => x
  | x :: y :: rest => x ++ sep ++ goJoin sep (y :: rest)

/-- Valid MIME header token byte, per net/textproto isTokenTable:
alphanumerics and the bytes of the RFC 7230 token special characters. -/
def validHeaderFieldByte (b : Nat) : Bool :=
  (48 ≤ b && b ≤ 57) || (65 ≤ b && b ≤ 90) || (97 ≤ b && b ≤ 122) ||
  b == 33 || b == 35 || b == 36 || b == 37 || b == 38 || b == 39 || b == 42 ||
  b == 43 || b == 45 || b == 46 || b == 94 || b == 95 || b == 96 || b == 124 ||
  b == 126

/-- The recasing pass of net/textproto canonicalMIMEHeaderKey: uppercase the
first byte and every byte following a hyphen (byte 45), lowercase the rest. -/
def recaseKey : Bool → GoStr → GoStr
  | _, [] => []
  | upper, b :: rest =>
    (if upper then toUpperByte b else toLowerByte b) :: recaseKey (b == 45) rest

/-- net/textproto CanonicalMIMEHeaderKey: recase a key made of valid header
field bytes; a key containing any invalid byte is returned unchanged. -/
def canonicalMIMEHeaderKey (s : GoStr) : GoStr :=
  if s.all validHeaderFieldByte then recaseKey true s else s

/-- The http.Header map modelled as an association list of key/value pairs. -/
abbrev HeaderMap := List (GoStr × GoStr)

/-- Exact-key lookup in the header map, empty string when absent
(http.Header.Get returns the empty string for a missing key). -/
def lookupHeader : HeaderMap → GoStr → GoStr
  | [], _ => []
  | (k, v) :: rest, key => if k == key then v else lookupHeader rest key

/-- Replace the value stored under an exact key, or append the entry. -/
def setEntry : HeaderMap → GoStr → GoStr → HeaderMap
  | [], key, val => [(key, val)]
  | (k, v) :: rest, key, val =>
    if k == key then (key, val) :: rest else (k, v) :: setEntry rest key val

/-- http.Header.Set: store the value under the MIME-canonical form of the key. -/
def headerSet (h : HeaderMap) (key val : GoStr) : HeaderMap :=
  setEntry h (canonicalMIMEHeaderKey key) val

/-- http.Header.Get: exact lookup of the MIME-canonical form of the key. -/
def headerGet (h : HeaderMap) (key : GoStr) : GoStr :=
  lookupHeader h (canonicalMIMEHeaderKey key)

/-- The parts of net/url URL that the package reads: Path and RawQuery. -/
structure URL where
  path : GoStr
  rawQuery : GoStr
deriving DecidableEq

/-- The parts of http.Request that the package reads or writes. -/
structure Request where
  method : GoStr
  host : GoStr
  url : URL
  header : HeaderMap
deriving DecidableEq

/-- Constant s3TimeFormat = time.RFC1123Z (reference layout string). -/
def s3TimeFormat : GoStr := gs "Mon, 02 Jan 2006 15:04:05 -0700"

/-- Constant s3Subresources: comma-separated list of S3 subresource names. -/
def s3Subresources : GoStr :=
  gs "acl,lifecycle,location,logging,notification,partNumber,policy,requestPayment,torrent,uploadId,uploads,versionId,versioning,versions,website"

/-- subresourcesArray = strings.Split(s3Subresources, comma); the Go code
initializes this lazily on first use, which a pure definition models. -/
def subresourcesArray : List GoStr := splitOnByte 44 s3Subresources

/-- The selection loop of canonicalAmzHeaders: for each header name in map
order, lowercase its trimmed form and keep it when it starts with x-amz. -/
def selectAmzNames (h : HeaderMap) : List GoStr :=
  h.foldl
    (fun acc p =>
      let standardized := toLowerStr (trimSpace p.fst)
      if (gs "x-amz").isPrefixOf standardized then acc ++ [standardized] else acc)
    []

/-- Byte-lexicographic order on byte strings, the order sort.Strings uses. -/
def goStrLe : GoStr → GoStr → Bool
  | [], _ => true
  | _ :: _, [] => false
  | a :: as, b :: bs => a < b || (a == b && goStrLe as bs)

/-- The ordering relation of sort.Strings as a Prop. -/
def goStrLeProp (a b : GoStr) : Prop := goStrLe a b = true

instance : DecidableRel goStrLeProp := fun _ _ => instDecidableEqBool _ _

/-- sort.Strings: ascending lexicographic sort (result characterized by
sortedness and permutation, so the choice of algorithm is immaterial). -/
def sortStrings (l : List GoStr) : List GoStr :=
  List.insertionSort goStrLeProp l

/-- canonicalAmzHeaders from s3sigv2.go: collect the lowercased trimmed header
names starting with x-amz, sort them, emit name:value lines with newlines in
values replaced by spaces, join with newline plus a trailing newline, or the
empty string when no header matched. -/
def canonicalAmzHeaders (req : Request) : GoStr :=
  let headers := sortStrings (selectAmzNames req.header)
  let lines := headers.map
    (fun h => h ++ gs ":" ++ replaceNL (headerGet req.header h))
  if lines.length > 0 then goJoin nlB lines ++ nlB else []

/-- canonicalResource from s3sigv2.go: optional virtual-host bucket prefix
(host containing exactly three dots), the URL path, then one question-mark
segment per subresource name that prefixes the raw query. -/
def canonicalResource (req : Request) : GoStr :=
  let resource : GoStr :=
    if req.host.count 46 == 3 then gs "/" ++ (splitOnByte 46 req.host).headD []
    else []
  let resource := resource ++ req.url.path
  subresourcesArray.foldl
    (fun r subres =>
      if subres.isPrefixOf req.url.rawQuery then r ++ gs "?" ++ subres else r)
    resource

/-- stringToSign from s3sigv2.go. -/
def stringToSign (req : Request) : GoStr :=
  let str := req.method ++ nlB
  let str := str ++ headerGet req.header (gs "Content-MD5") ++ nlB
  let str := str ++ headerGet req.header (gs "Content-Type") ++ nlB
  let str := str ++ headerGet req.header (gs "Date") ++ nlB
  let str :=
    if canonicalAmzHeaders req ≠ [] then str ++ canonicalAmzHeaders req else str
  str ++ canonicalResource req

/-- prepareRequest from s3sigv2.go: overwrite Date with the formatted current
time (passed here as dateNow), set X-Amz-Security-Token when a variadic token
argument is supplied and non-empty, and normalize an empty path to a slash. -/
def prepareRequest (dateNow : GoStr) (token : List GoStr) (req : Request) :
    Request :=
  let req1 := { req with header := headerSet req.header (gs "Date") dateNow }
  let req2 :=
    match token with
    | t :: _ =>
      if t.length > 0 then
        { req1 with
          header := headerSet req1.header (gs "X-Amz-Security-Token") t }
      else req1
    | [] => req1
  if req2.url.path == [] then
    { req2 with url := { req2.url with path := req2.url.path ++ gs "/" } }
  else req2

/-! SHA-1 and HMAC (crypto/sha1, crypto/hmac): 32-bit words are naturals
taken modulo 2^32. -/

/-- Truncate to a 32-bit word. -/
def w32 (n : Nat) : Nat := n % 4294967296

/-- Left rotation of a 32-bit word by k bits. -/
def rotl (k n : Nat) : Nat := w32 ((n <<< k) ||| (n >>> (32 - k)))

/-- The eight big-endian bytes of the 64-bit message bit length. -/
def beBytes8 (n : Nat) : List Nat :=
  [(n >>> 56) % 256, (n >>> 48) % 256, (n >>> 40) % 256, (n >>> 32) % 256,
   (n >>> 24) % 256, (n >>> 16) % 256, (n >>> 8) % 256, n % 256]

/-- SHA-1 padding: a 128 byte, zeros to 56 mod 64, then the bit length. -/
def padMessage (msg : List Nat) : List Nat :=
  let l := msg.length
  msg ++ [128] ++ List.replicate ((119 - l % 64) % 64) 0 ++ beBytes8 (8 * l)

/-- Group bytes into big-endian 32-bit words. -/
def bytesToWords : List Nat → List Nat
  | a :: b :: c :: d :: rest =>
    ((((a <<< 8) ||| b) <<< 8 ||| c) <<< 8 ||| d) :: bytesToWords rest
  | _ => []

/-- Group words into 16-word blocks. -/
def wordsToBlocks : List Nat → List (List Nat)
  | a :: b :: c :: d :: e :: f :: g :: h :: i :: j :: k :: l :: m :: n :: o ::
      p :: rest =>
    [a, b, c, d, e, f, g, h, i, j, k, l, m, n, o, p] :: wordsToBlocks rest
  | _ => []

/-- Message-schedule extension; acc holds the words produced so far in
reverse order, n counts the remaining extension steps. -/
def sched (acc : List Nat) : Nat → List Nat
  | 0 => acc
  | n + 1 =>
    sched
      (rotl 1 ((acc.getD 2 0) ^^^ (acc.getD 7 0) ^^^ (acc.getD 13 0) ^^^
        (acc.getD 15 0)) :: acc) n

/-- Round constant. -/
def sha1K (i : Nat) : Nat :=
  if i < 20 then 1518500249
  else if i < 40 then 1859775393
  else if i < 60 then 2400959708
  else 3395469782

/-- Round mixing function; the complement of b is taken within 32 bits. -/
def sha1F (i b c d : Nat) : Nat :=
  if i < 20 then (b &&& c) ||| ((b ^^^ 4294967295) &&& d)
  else if i < 40 then b ^^^ c ^^^ d
  else if i < 60 then (b &&& c) ||| (b &&& d) ||| (c &&& d)
  else b ^^^ c ^^^ d

/-- One SHA-1 round on the five-word state. -/
def sha1Round (st : Nat × Nat × Nat × Nat × Nat) (iw : Nat × Nat) :
    Nat × Nat × Nat × Nat × Nat :=
  (w32 (rotl 5 st.1 + sha1F iw.1 st.2.1 st.2.2.1 st.2.2.2.1 + st.2.2.2.2 +
    sha1K iw.1 + iw.2),
   st.1, rotl 30 st.2.1, st.2.2.1, st.2.2.2.1)

/-- Compress one 16-word block into the running hash state. -/
def processBlock (h : Nat × Nat × Nat × Nat × Nat) (block : List Nat) :
    Nat × Nat × Nat × Nat × Nat :=
  let ws := (sched block.reverse 64).reverse
  let st := ((List.range 80).zip ws).foldl sha1Round h
  (w32 (h.1 + st.1), w32 (h.2.1 + st.2.1), w32 (h.2.2.1 + st.2.2.1),
   w32 (h.2.2.2.1 + st.2.2.2.1), w32 (h.2.2.2.2 + st.2.2.2.2))

/-- Big-endian bytes of a 32-bit word. -/
def wordBE (n : Nat) : List Nat :=
  [(n >>> 24) % 256, (n >>> 16) % 256, (n >>> 8) % 256, n % 256]

/-- SHA-1 of a byte string (crypto/sha1). -/
def sha1 (msg : List Nat) : List Nat :=
  let hs := (wordsToBlocks (bytesToWords (padMessage msg))).foldl processBlock
    (1732584193, 4023233417, 2562383102, 271733878, 3285377520)
  wordBE hs.1 ++ wordBE hs.2.1 ++ wordBE hs.2.2.1 ++ wordBE hs.2.2.2.1 ++
    wordBE hs.2.2.2.2

/-- HMAC key block: a key longer than the 64-byte SHA-1 block size is hashed
first, then the key is zero-padded to 64 bytes (crypto/hmac). -/
def hmacKeyBlock (key : List Nat) : List Nat :=
  let k := if key.length > 64 then sha1 key else key
  k ++ List.replicate (64 - k.length) 0

/-- HMAC-SHA1 digest of a message under a key (crypto/hmac with sha1.New). -/
def hmacDigest (key msg : List Nat) : List Nat :=
  let kb := hmacKeyBlock key
  sha1 ((kb.map (fun b => b ^^^ 92)) ++ sha1 ((kb.map (fun b => b ^^^ 54)) ++ msg))

/-- The state of a Go hmac.New(sha1.New, key) hash.Hash: the key it was
created with and the bytes written since creation or the last Reset. -/
structure HMACState where
  key : GoStr
  buffer : GoStr
deriving DecidableEq

/-- hmac.New(sha1.New, key): keyed state with an empty buffer. -/
def hmacNew (key : GoStr) : HMACState := { key := key, buffer := [] }

/-- hash.Hash.Write: append the written bytes to the buffer. -/
def hmacWrite (s : HMACState) (content : GoStr) : HMACState :=
  { s with buffer := s.buffer ++ content }

/-- hash.Hash.Sum(nil): the digest of the bytes written so far; Sum does not
change the underlying state. -/
def hmacSum (s : HMACState) : GoStr := hmacDigest s.key s.buffer

/-- hash.Hash.Reset: back to the initial keyed state. -/
def hmacReset (s : HMACState) : HMACState := { s with buffer := [] }

/-- S3CredentialPair from s3sigv2.go; the unexported hmacSHA1 field is nil
until the first signing call, which a Go struct literal cannot override. -/
structure S3CredentialPair where
  AccessKeyID : GoStr
  SecretAccessKey : GoStr
  SecurityToken : GoStr
  hmacSHA1 : Option HMACState
deriving DecidableEq

/-- A credential pair as constructed by package users: the unexported
hmacSHA1 field starts out nil. -/
def mkS3CredentialPair (id secret token : GoStr) : S3CredentialPair :=
  { AccessKeyID := id, SecretAccessKey := secret, SecurityToken := token,
    hmacSHA1 := none }

/-- SignBytesHmacSHA1 from s3sigv2.go: lazily create the keyed HMAC, write
the content, take the digest, reset the state.  The Go method mutates the
receiver through a pointer; the model returns the digest and the updated
pair. -/
def S3CredentialPair.SignBytesHmacSHA1 (c : S3CredentialPair)
    (content : GoStr) : GoStr × S3CredentialPair :=
  let st :=
    match c.hmacSHA1 with
    | none => hmacNew c.SecretAccessKey
    | some s => s
  let st := hmacWrite st content
  let hash := hmacSum st
  let st := hmacReset st
  (hash, { c with hmacSHA1 := some st })

/-- SignHTTPRequest from s3sigv2.go.  It calls prepareRequest(req) with no
token argument, signs the string-to-sign, and sets Authorization to the
literal concatenation of AWS:, the access key id, a colon, and the raw
digest bytes (Go string(bytes), the identity in this byte model).  The Go
function returns the mutated request; the model returns it with the updated
pair. -/
def S3CredentialPair.SignHTTPRequest (c : S3CredentialPair) (dateNow : GoStr)
    (req : Request) : Request × S3CredentialPair :=
  let req1 := prepareRequest dateNow [] req
  let r := c.SignBytesHmacSHA1 (stringToSign req1)
  let authHeader := gs "AWS:" ++ c.AccessKeyID ++ gs ":" ++ r.fst
  ({ req1 with header := headerSet req1.header (gs "Authorization") authHeader },
   r.snd)

/-- GetSignatureBytes from s3sigv2.go: same pipeline without the
Authorization header; returns the digest, the mutated request and the
updated pair. -/
def S3CredentialPair.GetSignatureBytes (c : S3CredentialPair) (dateNow : GoStr)
    (req : Request) : GoStr × Request × S3CredentialPair :=
  let req1 := prepareRequest dateNow [] req
  let r := c.SignBytesHmacSHA1 (stringToSign req1)
  (r.fst, req1, r.snd)

/-! Association-list lemmas for the header map. -/

theorem lookup_setEntry_self (h : HeaderMap) (k v : GoStr) :
    lookupHeader (setEntry h k v) k = v := by
  induction h with
  | nil => simp [setEntry, lookupHeader]
  | cons p rest ih =>
    obtain ⟨k0, v0⟩ := p
    by_cases hk : k0 = k
    · subst hk; simp [setEntry, lookupHeader]
    · simp [setEntry, lookupHeader, hk, ih]

theorem lookup_setEntry_other (h : HeaderMap) {k k' : GoStr} (v : GoStr)
    (hne : k' ≠ k) : lookupHeader (setEntry h k v) k' = lookupHeader h k' := by
  induction h with
  | nil => simp [setEntry, lookupHeader, Ne.symm hne]
  | cons p rest ih =>
    obtain ⟨k0, v0⟩ := p
    by_cases hk : k0 = k
    · subst hk; simp [setEntry, lookupHeader, Ne.symm hne]
    · simp [setEntry, lookupHeader, hk, ih]

theorem headerGet_headerSet_self (h : HeaderMap) (k v : GoStr) :
    headerGet (headerSet h k v) k = v :=
  lookup_setEntry_self h (canonicalMIMEHeaderKey k) v

theorem headerGet_headerSet_other (h : HeaderMap) {k k' : GoStr} (v : GoStr)
    (hne : canonicalMIMEHeaderKey k' ≠ canonicalMIMEHeaderKey k) :
    headerGet (headerSet h k v) k' = headerGet h k' :=
  lookup_setEntry_other h v hne

/-! The byte-lexicographic order is total, transitive and antisymmetric, so
sorting with it is characterized by sortedness plus permutation. -/

theorem goStrLe_total (a b : GoStr) : goStrLe a b = true ∨ goStrLe b a = true := by
  induction a generalizing b with
  | nil => left; rfl
  | cons x xs ih =>
    cases b with
    | nil => right; rfl
    | cons y ys =>
      simp only [goStrLe, Bool.or_eq_true, Bool.and_eq_true, decide_eq_true_eq,
        beq_iff_eq]
      rcases Nat.lt_trichotomy x y with h | h | h
      · exact Or.inl (Or.inl h)
      · subst h
        rcases ih ys with h2 | h2
        · exact Or.inl (Or.inr ⟨rfl, h2⟩)
        · exact Or.inr (Or.inr ⟨rfl, h2⟩)
      · exact Or.inr (Or.inl h)

theorem goStrLe_trans {a b c : GoStr} (hab : goStrLe a b = true)
    (hbc : goStrLe b c = true) : goStrLe a c = true := by
  induction a generalizing b c with
  | nil => rfl
  | cons x xs ih =>
    cases b with
    | nil => simp [goStrLe] at hab
    | cons y ys =>
      cases c with
      | nil => simp [goStrLe] at hbc
      | cons z zs =>
        simp only [goStrLe, Bool.or_eq_true, Bool.and_eq_true,
          decide_eq_true_eq, beq_iff_eq] at hab hbc ⊢
        rcases hab with h1 | ⟨h1, h1r⟩ <;> rcases hbc with h2 | ⟨h2, h2r⟩
        · exact Or.inl (Nat.lt_trans h1 h2)
        · exact Or.inl (h2 ▸ h1)
        · exact Or.inl (h1 ▸ h2)
        · exact Or.inr ⟨h1.trans h2, ih h1r h2r⟩

theorem goStrLe_antisymm {a b : GoStr} (hab : goStrLe a b = true)
    (hba : goStrLe b a = true) : a = b := by
  induction a generalizing b with
  | nil =>
    cases b with
    | nil => rfl
    | cons y ys => simp [goStrLe] at hba
  | cons x xs ih =>
    cases b with
    | nil => simp [goStrLe] at hab
    | cons y ys =>
      simp only [goStrLe, Bool.or_eq_true, Bool.and_eq_true,
        decide_eq_true_eq, beq_iff_eq] at hab hba
      rcases hab with h1 | ⟨h1, h1r⟩ <;> rcases hba with h2 | ⟨h2, h2r⟩
      · exact absurd (Nat.lt_trans h1 h2) (Nat.lt_irrefl x)
      · exact absurd h1 (h2 ▸ Nat.lt_irrefl x)
      · exact absurd h2 (h1 ▸ Nat.lt_irrefl x)
      · exact h1 ▸ congrArg (x :: ·) (ih h1r h2r)

instance : IsTotal GoStr goStrLeProp := ⟨goStrLe_total⟩

instance : IsTrans GoStr goStrLeProp := ⟨fun _ _ _ => goStrLe_trans⟩

instance : IsAntisymm GoStr goStrLeProp := ⟨fun _ _ => goStrLe_antisymm⟩

theorem sortStrings_perm (l : List GoStr) : (sortStrings l).Perm l :=
  List.perm_insertionSort _ l

theorem sortStrings_sorted (l : List GoStr) :
    (sortStrings l).Sorted goStrLeProp :=
  List.sorted_insertionSort goStrLeProp l

/-! Decomposition of canonicalResource. -/

/-- The virtual-host bucket piece of the canonical resource: a slash plus the
first dot-separated host label when the host has exactly three dots. -/
def bucketPart (host : GoStr) : GoStr :=
  if host.count 46 == 3 then gs "/" ++ (splitOnByte 46 host).headD [] else []

/-- The subresource suffix of the canonical resource in filtered form: one
question-mark segment per listed subresource name that prefixes the raw
query, kept in the fixed list order. -/
def subresSuffix (req : Request) : GoStr :=
  ((subresourcesArray.filter (fun s => s.isPrefixOf req.url.rawQuery)).map
    (fun s => gs "?" ++ s)).flatten

theorem foldl_subres (q : GoStr) (l : List GoStr) (init : GoStr) :
    l.foldl (fun r s => if s.isPrefixOf q then r ++ gs "?" ++ s else r) init =
      init ++
        ((l.filter (fun s => s.isPrefixOf q)).map (fun s => gs "?" ++ s)).flatten := by
  induction l generalizing init with
  | nil => simp
  | cons s rest ih =>
    simp only [List.foldl_cons, List.filter_cons]
    cases hp : s.isPrefixOf q with
    | true =>
      simp only [hp, if_true, List.map_cons, List.flatten_cons]
      rw [ih]
      simp [List.append_assoc]
    | false =>
      simp only [hp, Bool.false_eq_true, if_false]
      exact ih init

theorem canonicalResource_decomp (req : Request) :
    canonicalResource req = bucketPart req.host ++ req.url.path ++ subresSuffix req := by
  unfold canonicalResource bucketPart subresSuffix
  rw [foldl_subres]

theorem splitOn_headD_takeWhile (sep : Nat) (s : GoStr) :
    (splitOnByte sep s).headD [] = s.takeWhile (fun b => b != sep) := by
  have aux : ∀ (t : GoStr) (acc : GoStr),
      (splitOnAux sep t acc).headD [] =
        acc.reverse ++ t.takeWhile (fun b => b != sep) := by
    intro t
    induction t with
    | nil => intro acc; simp [splitOnAux]
    | cons b rest ih =>
      intro acc
      by_cases hb : b = sep
      · subst hb
        simp [splitOnAux, List.takeWhile_cons]
      · have hstep : splitOnAux sep (b :: rest) acc = splitOnAux sep rest (b :: acc) := by
          simp [splitOnAux, hb]
        rw [hstep, ih (b :: acc), List.takeWhile_cons]
        simp [hb, List.append_assoc]
  simpa using aux s []

/-! Prefix facts used for the subresource list. -/

theorem isPrefixOf_total {q : GoStr} : ∀ {a b : GoStr},
    a.isPrefixOf q = true → b.isPrefixOf q = true →
    a.isPrefixOf b = true ∨ b.isPrefixOf a = true := by
  induction q with
  | nil =>
    intro a b ha hb
    cases a with
    | nil => exact Or.inl List.isPrefixOf_nil_left
    | cons a0 as =>
      rw [List.isPrefixOf_cons_nil] at ha
      exact absurd ha (by simp)
  | cons x rest ih =>
    intro a b ha hb
    cases a with
    | nil => exact Or.inl List.isPrefixOf_nil_left
    | cons a0 as =>
      cases b with
      | nil => exact Or.inr List.isPrefixOf_nil_left
      | cons b0 bs =>
        rw [List.isPrefixOf_cons₂] at ha hb
        simp only [Bool.and_eq_true, beq_iff_eq] at ha hb
        rcases ha with ⟨hax, har⟩
        rcases hb with ⟨hbx, hbr⟩
        rcases ih har hbr with h | h
        · refine Or.inl ?_
          rw [List.isPrefixOf_cons₂]
          simp [hax.trans hbx.symm, h]
        · refine Or.inr ?_
          rw [List.isPrefixOf_cons₂]
          simp [hbx.trans hax.symm, h]

/-- No subresource name in the fixed list is a byte-string prefix of another
name in the list. -/
theorem subres_pairwise :
    subresourcesArray.Pairwise
      (fun a b => a.isPrefixOf b = false ∧ b.isPrefixOf a = false) := by
  decide

theorem filter_isPrefixOf_le_one {l : List GoStr} {q : GoStr}
    (hp : l.Pairwise (fun a b => a.isPrefixOf b = false ∧ b.isPrefixOf a = false)) :
    l.filter (fun s => s.isPrefixOf q) = [] ∨
      ∃ s, s ∈ l ∧ l.filter (fun s => s.isPrefixOf q) = [s] := by
  induction l with
  | nil => exact Or.inl rfl
  | cons s rest ih =>
    rcases List.pairwise_cons.mp hp with ⟨hs, hrest⟩
    cases hm : s.isPrefixOf q with
    | true =>
      refine Or.inr ⟨s, List.mem_cons_self s rest, ?_⟩
      have hnone : rest.filter (fun t => t.isPrefixOf q) = [] := by
        rw [List.filter_eq_nil_iff]
        intro t ht
        rcases hs t ht with ⟨h1, h2⟩
        intro htq
        rcases isPrefixOf_total hm htq with h | h
        · rw [h1] at h; exact absurd h (by simp)
        · rw [h2] at h; exact absurd h (by simp)
      rw [List.filter_cons]
      simp only [hm, if_true, hnone]
    | false =>
      have hskip : (s :: rest).filter (fun t => t.isPrefixOf q) =
          rest.filter (fun t => t.isPrefixOf q) := by
        rw [List.filter_cons]
        simp [hm]
      rw [hskip]
      rcases ih hrest with h | ⟨t, htm, hte⟩
      · exact Or.inl h
      · exact Or.inr ⟨t, List.mem_cons_of_mem s htm, hte⟩

/-! Example requests used by the concrete claims. -/

/-- The end-to-end example request: GET photo.jpg with a preset Date. -/
def c2req : Request :=
  { method := gs "GET", host := gs "examplebucket.s3.amazonaws.com",
    url := { path := gs "/photo.jpg", rawQuery := [] },
    header := headerSet [] (gs "Date") (gs "Tue, 27 Mar 2007 19:36:42 +0000") }

/-- Request whose raw query is acl&foo=bar. -/
def c5reqAcl : Request :=
  { method := gs "GET", host := gs "s3.amazonaws.com",
    url := { path := gs "/obj", rawQuery := gs "acl&foo=bar" }, header := [] }

/-- Request whose raw query is uploads. -/
def c5reqUploads : Request :=
  { method := gs "GET", host := gs "s3.amazonaws.com",
    url := { path := gs "/obj", rawQuery := gs "uploads" }, header := [] }

/-- Request addressed to a virtual-hosted-style bucket host (three dots). -/
def c6reqBucket : Request :=
  { method := gs "GET", host := gs "mybucket.s3.amazonaws.com",
    url := { path := gs "/obj", rawQuery := [] }, header := [] }

/-- Request addressed to a path-style host (two dots). -/
def c6reqNoBucket : Request :=
  { method := gs "GET", host := gs "s3.amazonaws.com",
    url := { path := gs "/obj", rawQuery := [] }, header := [] }

/-- C2: for a GET request to host examplebucket.s3.amazonaws.com, path
/photo.jpg, empty raw query, no Content-MD5 or Content-Type or x-amz
headers, and the Date header preset to Tue, 27 Mar 2007 19:36:42 +0000,
stringToSign returns exactly GET, two empty lines, the date line, and the
canonical resource /examplebucket/photo.jpg, with no trailing newline. -/
theorem c2_stringToSign_example :
    stringToSign c2req =
      gs "GET\n\n\nTue, 27 Mar 2007 19:36:42 +0000\n/examplebucket/photo.jpg" := by
  decide

/-- C5: canonicalResource appends, after the bucket piece and the URL path,
one question-mark segment for each name of the fixed subresource list (in
the fixed list order, no deduplication, no short-circuit) that is a prefix
of the raw query string; the list is exactly the fifteen documented names;
query acl&foo=bar yields a resource ending in the acl segment and query
uploads one ending in the uploads segment. -/
theorem c5_subresource_segments :
    (∀ req : Request,
      canonicalResource req =
        bucketPart req.host ++ req.url.path ++
          ((subresourcesArray.filter
              (fun s => s.isPrefixOf req.url.rawQuery)).map
            (fun s => gs "?" ++ s)).flatten) ∧
    subresourcesArray =
      [gs "acl", gs "lifecycle", gs "location", gs "logging",
       gs "notification", gs "partNumber", gs "policy", gs "requestPayment",
       gs "torrent", gs "uploadId", gs "uploads", gs "versionId",
       gs "versioning", gs "versions", gs "website"] ∧
    canonicalResource c5reqAcl = gs "/obj?acl" ∧
    canonicalResource c5reqUploads = gs "/obj?uploads" := by
  refine ⟨fun req => canonicalResource_decomp req, by decide, by decide, by decide⟩

/-- C6: canonicalResource starts with a slash plus the first dot-separated
label of the host exactly when the host contains exactly three dots, and
with the URL path as-is otherwise; host mybucket.s3.amazonaws.com (three
dots) gives resource /mybucket/obj, host s3.amazonaws.com (two dots) gives
/obj. -/
theorem c6_bucket_detection :
    (∀ req : Request,
      canonicalResource req =
        (if req.host.count 46 == 3 then
          gs "/" ++ req.host.takeWhile (fun b => b != 46)
        else []) ++ req.url.path ++ subresSuffix req) ∧
    canonicalResource c6reqBucket = gs "/mybucket/obj" ∧
    canonicalResource c6reqNoBucket = gs "/obj" := by
  refine ⟨fun req => ?_, by decide, by decide⟩
  rw [canonicalResource_decomp req]
  unfold bucketPart
  rw [splitOn_headD_takeWhile]

/-- C10: for every request, canonicalResource carries at most one appended
subresource segment: since no name of the fixed list is a prefix of another
listed name, no raw query starts with two distinct listed names. -/
theorem c10_at_most_one_segment (req : Request) :
    canonicalResource req = bucketPart req.host ++ req.url.path ∨
      ∃ s, s ∈ subresourcesArray ∧
        canonicalResource req =
          bucketPart req.host ++ req.url.path ++ (gs "?" ++ s) := by
  rcases filter_isPrefixOf_le_one (q := req.url.rawQuery) subres_pairwise with
    h | ⟨s, hsmem, hs⟩
  · left
    rw [canonicalResource_decomp req]
    unfold subresSuffix
    rw [h]
    simp
  · right
    refine ⟨s, hsmem, ?_⟩
    rw [canonicalResource_decomp req]
    unfold subresSuffix
    rw [hs]
    simp

/-! Preparation frame and signing theorems. -/

theorem prepareRequest_notoken_form (dateNow : GoStr) (req : Request) :
    prepareRequest dateNow [] req =
      if req.url.path == [] then
        { req with
          header := headerSet req.header (gs "Date") dateNow,
          url := { req.url with path := req.url.path ++ gs "/" } }
      else { req with header := headerSet req.header (gs "Date") dateNow } :=
  rfl

theorem canon_date_key : canonicalMIMEHeaderKey (gs "Date") = gs "Date" := by
  decide

theorem headerGet_set_date (h : HeaderMap) (dateNow : GoStr) (k : GoStr) :
    headerGet (headerSet h (gs "Date") dateNow) k =
      (if canonicalMIMEHeaderKey k = gs "Date" then dateNow
       else headerGet h k) := by
  by_cases hk : canonicalMIMEHeaderKey k = gs "Date"
  · rw [if_pos hk]
    unfold headerGet headerSet
    rw [canon_date_key, hk]
    exact lookup_setEntry_self h (gs "Date") dateNow
  · rw [if_neg hk]
    exact headerGet_headerSet_other h dateNow (by rw [canon_date_key]; exact hk)

/-- C8: request preparation as run by the signing entry points (no token
argument) overwrites Date with the supplied current-time string, normalizes
only an empty path to a slash, and changes nothing else: method, host and
raw query are untouched and every header key whose canonical form is not
Date reads the same as before. -/
theorem c8_prepare_request_frame (dateNow : GoStr) (req : Request) :
    (prepareRequest dateNow [] req).method = req.method ∧
    (prepareRequest dateNow [] req).host = req.host ∧
    (prepareRequest dateNow [] req).url.rawQuery = req.url.rawQuery ∧
    (prepareRequest dateNow [] req).url.path =
      (if req.url.path = [] then gs "/" else req.url.path) ∧
    ∀ k : GoStr,
      headerGet (prepareRequest dateNow [] req).header k =
        (if canonicalMIMEHeaderKey k = gs "Date" then dateNow
         else headerGet req.header k) := by
  rw [prepareRequest_notoken_form]
  cases hb : (req.url.path == ([] : GoStr)) with
  | true =>
    have hpath : req.url.path = [] := by simpa using hb
    refine ⟨rfl, rfl, rfl, ?_, fun k => headerGet_set_date req.header dateNow k⟩
    simp [hpath]
  | false =>
    have hpath : ¬ req.url.path = [] := by simpa using hb
    refine ⟨rfl, rfl, rfl, ?_, fun k => headerGet_set_date req.header dateNow k⟩
    simp [hpath]

theorem sha1_length_20 (m : List Nat) : (sha1 m).length = 20 := by
  simp [sha1, wordBE]

theorem hmacDigest_length_20 (k m : List Nat) : (hmacDigest k m).length = 20 :=
  sha1_length_20 _

/-- C3: SignHTTPRequest sets the Authorization header of the returned
request to the literal concatenation of AWS:, the access key id, a colon,
and the raw HMAC-SHA1 digest bytes of the string-to-sign under the secret
key - twenty bytes, embedded as-is with no base64 or other encoding. -/
theorem c3_authorization_header (id secret token dateNow : GoStr)
    (req : Request) :
    headerGet
        ((mkS3CredentialPair id secret token).SignHTTPRequest dateNow
          req).fst.header (gs "Authorization") =
      gs "AWS:" ++ id ++ gs ":" ++
        hmacDigest secret (stringToSign (prepareRequest dateNow [] req)) ∧
    (hmacDigest secret (stringToSign (prepareRequest dateNow [] req))).length
      = 20 := by
  constructor
  · exact headerGet_headerSet_self _ _ _
  · exact hmacDigest_length_20 _ _

/-! Security-token propagation: the credential pair used for the evidence. -/

/-- A credential pair whose SecurityToken field is non-empty. -/
def c1pair : S3CredentialPair :=
  mkS3CredentialPair (gs "AKIDEXAMPLE") (gs "secretkey") (gs "SECTOKEN")

/-- A plain GET request with no headers. -/
def c1req : Request :=
  { method := gs "GET", host := gs "example.com",
    url := { path := gs "/", rawQuery := [] }, header := [] }

/-- A fixed formatted current-time string. -/
def c1date : GoStr := gs "Mon, 02 Jan 2006 15:04:05 -0700"

/-- C1: evidence that the code drops the SecurityToken of the credential
pair: SignHTTPRequest and GetSignatureBytes invoke prepareRequest with no
token argument, so even for a pair whose SecurityToken is non-empty the
signed request carries no X-Amz-Security-Token header and its canonical
amz-headers block is empty, although prepareRequest does set the header
when the token argument is actually passed. -/
theorem c1_security_token_dropped :
    c1pair.SecurityToken.length = 8 ∧
    headerGet (c1pair.SignHTTPRequest c1date c1req).fst.header
      (gs "X-Amz-Security-Token") = [] ∧
    headerGet (c1pair.GetSignatureBytes c1date c1req).snd.fst.header
      (gs "X-Amz-Security-Token") = [] ∧
    canonicalAmzHeaders (c1pair.SignHTTPRequest c1date c1req).fst = [] ∧
    headerGet (prepareRequest c1date [c1pair.SecurityToken] c1req).header
      (gs "X-Amz-Security-Token") = c1pair.SecurityToken := by
  refine ⟨by decide, ?_, by decide, by decide, by decide⟩
  decide

/-! The stateful HMAC reuse refines per-call fresh HMAC construction. -/

/-- Run a sequence of SignBytesHmacSHA1 calls on one credential pair,
threading the mutated pair, and collect the returned digests. -/
def runSignCalls (c : S3CredentialPair) : List GoStr → List GoStr
  | [] => []
  | m :: rest =>
    (c.SignBytesHmacSHA1 m).fst :: runSignCalls (c.SignBytesHmacSHA1 m).snd rest

theorem signBytes_clean_fst (c : S3CredentialPair) (m : GoStr)
    (hc : c.hmacSHA1 = none ∨ c.hmacSHA1 = some (hmacNew c.SecretAccessKey)) :
    (c.SignBytesHmacSHA1 m).fst = hmacDigest c.SecretAccessKey m := by
  rcases hc with h | h <;>
    simp [S3CredentialPair.SignBytesHmacSHA1, h, hmacNew, hmacWrite, hmacSum]

theorem signBytes_clean_snd (c : S3CredentialPair) (m : GoStr)
    (hc : c.hmacSHA1 = none ∨ c.hmacSHA1 = some (hmacNew c.SecretAccessKey)) :
    (c.SignBytesHmacSHA1 m).snd =
      { c with hmacSHA1 := some (hmacNew c.SecretAccessKey) } := by
  rcases hc with h | h <;>
    simp [S3CredentialPair.SignBytesHmacSHA1, h, hmacNew, hmacWrite, hmacSum,
      hmacReset]

theorem runSignCalls_spec (ms : List GoStr) : ∀ (c : S3CredentialPair),
    (c.hmacSHA1 = none ∨ c.hmacSHA1 = some (hmacNew c.SecretAccessKey)) →
    runSignCalls c ms = ms.map (hmacDigest c.SecretAccessKey) := by
  induction ms with
  | nil => intro c _; rfl
  | cons m rest ih =>
    intro c hc
    rw [runSignCalls, signBytes_clean_fst c m hc, signBytes_clean_snd c m hc,
      List.map_cons]
    refine congrArg _ ?_
    exact ih _ (Or.inr rfl)

/-- C7: for every credential pair as constructed by a user (nil internal
HMAC state) and every sequence of SignBytesHmacSHA1 calls, each call
returns exactly the HMAC-SHA1 digest of that call's content under the
secret key: the lazily created, reset-between-uses state is functionally
equivalent to a fresh HMAC per call, with no carry-over between calls. -/
theorem c7_stateful_hmac_refines_fresh (id secret token : GoStr)
    (ms : List GoStr) :
    runSignCalls (mkS3CredentialPair id secret token) ms =
      ms.map (hmacDigest secret) :=
  runSignCalls_spec ms (mkS3CredentialPair id secret token) (Or.inl rfl)

/-! The canonical amz-headers block, restated from the specification text. -/

/-- The amz-headers block as the spec words it: take all header names whose
lowercased, trimmed form starts with x-amz, sort those lowercased names,
map each to name, colon, value with newlines folded to spaces, join with
newline and append one trailing newline; empty selection gives the empty
string. -/
def canonicalAmzHeadersClaim (req : Request) : GoStr :=
  let names :=
    ((req.header.map Prod.fst).map (fun n => toLowerStr (trimSpace n))).filter
      (fun n => (gs "x-amz").isPrefixOf n)
  let sorted := sortStrings names
  if sorted.isEmpty then []
  else
    goJoin nlB
      (sorted.map (fun n => n ++ gs ":" ++ replaceNL (headerGet req.header n)))
      ++ nlB

theorem selectAmzNames_eq (h : HeaderMap) :
    selectAmzNames h =
      ((h.map Prod.fst).map (fun n => toLowerStr (trimSpace n))).filter
        (fun n => (gs "x-amz").isPrefixOf n) := by
  have aux : ∀ (l : HeaderMap) (acc : List GoStr),
      l.foldl
        (fun acc p =>
          let standardized := toLowerStr (trimSpace p.fst)
          if (gs "x-amz").isPrefixOf standardized then acc ++ [standardized]
          else acc) acc =
      acc ++
        ((l.map Prod.fst).map (fun n => toLowerStr (trimSpace n))).filter
          (fun n => (gs "x-amz").isPrefixOf n) := by
    intro l
    induction l with
    | nil => intro acc; simp
    | cons p rest ih =>
      intro acc
      simp only [List.foldl_cons, List.map_cons, List.filter_cons]
      cases hp : (gs "x-amz").isPrefixOf (toLowerStr (trimSpace p.fst)) with
      | true =>
        simp only [hp, if_true]
        rw [ih]
        simp [List.append_assoc]
      | false =>
        simp only [hp, Bool.false_eq_true, if_false]
        exact ih acc
  simpa only [List.nil_append] using aux h []

/-- C4: the canonical amz-headers block computed by the code coincides with
the block described by the spec sentence (select lowercased trimmed names
with the x-amz prefix, sort lexicographically, emit folded name:value
lines, join with newline plus one trailing newline, nothing when empty);
sorting is a lexicographically sorted permutation; and an empty block
contributes nothing, not even a blank line, to the string-to-sign. -/
theorem c4_amz_block_shape :
    (∀ req : Request, canonicalAmzHeaders req = canonicalAmzHeadersClaim req) ∧
    (∀ l : List GoStr,
      (sortStrings l).Perm l ∧ List.Sorted goStrLeProp (sortStrings l)) ∧
    (∀ req : Request,
      stringToSign req =
        req.method ++ nlB ++ headerGet req.header (gs "Content-MD5") ++ nlB ++
          headerGet req.header (gs "Content-Type") ++ nlB ++
          headerGet req.header (gs "Date") ++ nlB ++
          canonicalAmzHeaders req ++ canonicalResource req) := by
  refine ⟨fun req => ?_, fun l => ⟨sortStrings_perm l, sortStrings_sorted l⟩,
    fun req => ?_⟩
  · simp only [canonicalAmzHeaders, canonicalAmzHeadersClaim]
    rw [selectAmzNames_eq]
    cases hL : sortStrings
        (((req.header.map Prod.fst).map (fun n => toLowerStr (trimSpace n))).filter
          (fun n => (gs "x-amz").isPrefixOf n)) with
    | nil => simp
    | cons a rest => simp
  · simp only [stringToSign]
    by_cases hz : canonicalAmzHeaders req ≠ []
    · rw [if_pos hz]
    · rw [if_neg hz, not_not.mp hz]
      simp

/-! Header-name casing: congruence lemmas. -/

theorem lowerByte_eq_cases {a b : Nat} (h : toLowerByte a = toLowerByte b) :
    a = b ∨ (65 ≤ a ∧ a ≤ 90 ∧ b = a + 32) ∨ (65 ≤ b ∧ b ≤ 90 ∧ a = b + 32) := by
  unfold toLowerByte at h
  split_ifs at h <;> omega

theorem byte_case_facts {a b : Nat} (h : toLowerByte a = toLowerByte b) :
    toUpperByte a = toUpperByte b ∧ (a == 45) = (b == 45) ∧
    isSpaceByte a = isSpaceByte b ∧
    validHeaderFieldByte a = validHeaderFieldByte b := by
  have spaceFalse : ∀ n : Nat, 65 ≤ n → isSpaceByte n = false := by
    intro n hn
    unfold isSpaceByte
    simp only [Bool.or_eq_false_iff, beq_eq_false_iff_ne, ne_eq]
    omega
  have validTrue : ∀ n : Nat,
      (65 ≤ n ∧ n ≤ 90) ∨ (97 ≤ n ∧ n ≤ 122) → validHeaderFieldByte n = true := by
    intro n hn
    unfold validHeaderFieldByte
    simp only [Bool.or_eq_true, Bool.and_eq_true, decide_eq_true_eq, beq_iff_eq]
    omega
  rcases lowerByte_eq_cases h with rfl | ⟨h1, h2, rfl⟩ | ⟨h1, h2, rfl⟩
  · exact ⟨rfl, rfl, rfl, rfl⟩
  · refine ⟨?_, ?_, ?_, ?_⟩
    · unfold toUpperByte; split_ifs <;> omega
    · rw [beq_eq_false_iff_ne.mpr (by omega : a ≠ 45),
        beq_eq_false_iff_ne.mpr (by omega : a + 32 ≠ 45)]
    · rw [spaceFalse a (by omega), spaceFalse (a + 32) (by omega)]
    · rw [validTrue a (Or.inl ⟨h1, h2⟩), validTrue (a + 32) (Or.inr (by omega))]
  · refine ⟨?_, ?_, ?_, ?_⟩
    · unfold toUpperByte; split_ifs <;> omega
    · rw [beq_eq_false_iff_ne.mpr (by omega : b + 32 ≠ 45),
        beq_eq_false_iff_ne.mpr (by omega : b ≠ 45)]
    · rw [spaceFalse (b + 32) (by omega), spaceFalse b (by omega)]
    · rw [validTrue (b + 32) (Or.inr (by omega)), validTrue b (Or.inl ⟨h1, h2⟩)]

theorem recaseKey_congr {s : GoStr} : ∀ {t : GoStr},
    toLowerStr s = toLowerStr t → ∀ u : Bool, recaseKey u s = recaseKey u t := by
  induction s with
  | nil =>
    intro t h u
    cases t with
    | nil => rfl
    | cons b bs => exact absurd h (by simp [toLowerStr])
  | cons a as ih =>
    intro t h u
    cases t with
    | nil => exact absurd h (by simp [toLowerStr])
    | cons b bs =>
      simp only [toLowerStr, List.map_cons, List.cons.injEq] at h
      rcases h with ⟨h1, h2⟩
      obtain ⟨hu, h45, _, _⟩ := byte_case_facts h1
      have htail : recaseKey (a == 45) as = recaseKey (b == 45) bs := by
        rw [h45]; exact ih h2 (b == 45)
      cases u with
      | true => simp only [recaseKey, if_true, hu, htail]
      | false =>
        simp only [recaseKey, Bool.false_eq_true, if_false, h1, htail]

theorem allValid_congr {s : GoStr} : ∀ {t : GoStr},
    toLowerStr s = toLowerStr t →
    s.all validHeaderFieldByte = t.all validHeaderFieldByte := by
  induction s with
  | nil =>
    intro t h
    cases t with
    | nil => rfl
    | cons b bs => exact absurd h (by simp [toLowerStr])
  | cons a as ih =>
    intro t h
    cases t with
    | nil => exact absurd h (by simp [toLowerStr])
    | cons b bs =>
      simp only [toLowerStr, List.map_cons, List.cons.injEq] at h
      rcases h with ⟨h1, h2⟩
      obtain ⟨_, _, _, hv⟩ := byte_case_facts h1
      simp only [List.all_cons, hv, ih h2]

theorem canonicalKey_congr {s t : GoStr} (h : toLowerStr s = toLowerStr t)
    (hv : s.all validHeaderFieldByte = true) :
    canonicalMIMEHeaderKey s = canonicalMIMEHeaderKey t := by
  have hv2 : t.all validHeaderFieldByte = true := by
    rw [← allValid_congr h]; exact hv
  unfold canonicalMIMEHeaderKey
  rw [hv, hv2]
  simp only [if_true]
  exact recaseKey_congr h true

theorem dropWhile_lower_congr {s : GoStr} : ∀ {t : GoStr},
    toLowerStr s = toLowerStr t →
    toLowerStr (s.dropWhile isSpaceByte) = toLowerStr (t.dropWhile isSpaceByte) := by
  induction s with
  | nil =>
    intro t h
    cases t with
    | nil => rfl
    | cons b bs => exact absurd h (by simp [toLowerStr])
  | cons a as ih =>
    intro t h
    cases t with
    | nil => exact absurd h (by simp [toLowerStr])
    | cons b bs =>
      simp only [toLowerStr, List.map_cons, List.cons.injEq] at h
      rcases h with ⟨h1, h2⟩
      obtain ⟨_, _, hsp, _⟩ := byte_case_facts h1
      rw [List.dropWhile_cons, List.dropWhile_cons, hsp]
      cases hb : isSpaceByte b with
      | true => simp only [if_true]; exact ih h2
      | false =>
        simp only [Bool.false_eq_true, if_false, toLowerStr, List.map_cons, h1]
        simpa [toLowerStr] using h2

theorem trim_lower_congr {s t : GoStr} (h : toLowerStr s = toLowerStr t) :
    toLowerStr (trimSpace s) = toLowerStr (trimSpace t) := by
  unfold trimSpace
  have h1 := dropWhile_lower_congr h
  have h2 : toLowerStr (s.dropWhile isSpaceByte).reverse =
      toLowerStr (t.dropWhile isSpaceByte).reverse := by
    simp only [toLowerStr, List.map_reverse]
    exact congrArg List.reverse h1
  have h3 := dropWhile_lower_congr h2
  simp only [toLowerStr, List.map_reverse]
  exact congrArg List.reverse h3

/-- Pointwise comparison of two header name/value lists: names equal up to
ASCII case and made of valid MIME token bytes, values equal. -/
def namesCaseEqB : List (GoStr × GoStr) → List (GoStr × GoStr) → Bool
  | [], [] => true
  | p :: r1, q :: r2 =>
    (toLowerStr p.fst == toLowerStr q.fst) && p.fst.all validHeaderFieldByte &&
      (p.snd == q.snd) && namesCaseEqB r1 r2
  | _, _ => false

/-- Build a header map by a sequence of http.Header.Set calls. -/
def buildSetHeaders (l : List (GoStr × GoStr)) : HeaderMap :=
  l.foldl (fun h p => headerSet h p.fst p.snd) []

theorem buildSet_congr {l1 : List (GoStr × GoStr)} : ∀ {l2 : List (GoStr × GoStr)},
    namesCaseEqB l1 l2 = true → buildSetHeaders l1 = buildSetHeaders l2 := by
  have aux : ∀ (l1 l2 : List (GoStr × GoStr)) (acc : HeaderMap),
      namesCaseEqB l1 l2 = true →
      l1.foldl (fun h p => headerSet h p.fst p.snd) acc =
        l2.foldl (fun h p => headerSet h p.fst p.snd) acc := by
    intro l1
    induction l1 with
    | nil =>
      intro l2 acc h
      cases l2 with
      | nil => rfl
      | cons q r2 => exact absurd h (by simp [namesCaseEqB])
    | cons p r1 ih =>
      intro l2 acc h
      cases l2 with
      | nil => exact absurd h (by simp [namesCaseEqB])
      | cons q r2 =>
        simp only [namesCaseEqB, Bool.and_eq_true, beq_iff_eq] at h
        rcases h with ⟨⟨⟨hlow, hval⟩, hv⟩, hrest⟩
        simp only [List.foldl_cons]
        rw [show headerSet acc p.fst p.snd = headerSet acc q.fst q.snd from by
          unfold headerSet; rw [canonicalKey_congr hlow hval, hv]]
        exact ih r2 _ (by simpa [namesCaseEqB] using hrest)
  intro l2 h
  exact aux l1 l2 [] h

theorem mapNames_congr {l1 : List (GoStr × GoStr)} : ∀ {l2 : List (GoStr × GoStr)},
    namesCaseEqB l1 l2 = true →
    (l1.map Prod.fst).map (fun n => toLowerStr (trimSpace n)) =
      (l2.map Prod.fst).map (fun n => toLowerStr (trimSpace n)) := by
  induction l1 with
  | nil =>
    intro l2 h
    cases l2 with
    | nil => rfl
    | cons q r2 => exact absurd h (by simp [namesCaseEqB])
  | cons p r1 ih =>
    intro l2 h
    cases l2 with
    | nil => exact absurd h (by simp [namesCaseEqB])
    | cons q r2 =>
      simp only [namesCaseEqB, Bool.and_eq_true, beq_iff_eq] at h
      rcases h with ⟨⟨⟨hlow, _⟩, _⟩, hrest⟩
      have hhead := trim_lower_congr hlow
      have htail := @ih r2 (by simpa [namesCaseEqB] using hrest)
      simp only [List.map_cons, hhead, htail]

theorem selectAmz_congr {l1 l2 : List (GoStr × GoStr)}
    (h : namesCaseEqB l1 l2 = true) :
    selectAmzNames l1 = selectAmzNames l2 := by
  rw [selectAmzNames_eq, selectAmzNames_eq, mapNames_congr h]

/-! C9: the counterexample requests, name casing flipped. -/

/-- Request holding one amz header stored under its canonical-cased name. -/
def c9reqA : Request :=
  { method := gs "GET", host := gs "example.com",
    url := { path := gs "/", rawQuery := [] },
    header := [(gs "X-Amz-Foo", gs "v")] }

/-- The same request with the stored header name cased differently. -/
def c9reqB : Request :=
  { method := gs "GET", host := gs "example.com",
    url := { path := gs "/", rawQuery := [] },
    header := [(gs "x-AMZ-foo", gs "v")] }

/-- C9 counterexample: two requests identical except for the casing of their
stored header names produce different canonical amz-headers blocks, because
Header.Get looks up the MIME-canonical key by exact match and misses the
non-canonically cased stored key, yielding an empty value for one request. -/
theorem c9_counterexample_casing :
    c9reqA.method = c9reqB.method ∧ c9reqA.host = c9reqB.host ∧
    c9reqA.url = c9reqB.url ∧
    c9reqA.header.map Prod.snd = c9reqB.header.map Prod.snd ∧
    c9reqA.header.map (fun p => toLowerStr p.fst) =
      c9reqB.header.map (fun p => toLowerStr p.fst) ∧
    canonicalAmzHeaders c9reqA ≠ canonicalAmzHeaders c9reqB := by
  decide

/-- C9 (amended): for header lists whose names are equal up to casing and
made of valid MIME token bytes, selection and ordering of the amz names
coincide, and requests whose headers are stored through http.Header.Set
produce identical canonical amz-headers blocks (Set canonicalizes stored
keys, erasing the original casing). -/
theorem c9_amended_casing (m host pa q : GoStr)
    (l1 l2 : List (GoStr × GoStr)) (hcase : namesCaseEqB l1 l2 = true) :
    sortStrings (selectAmzNames l1) = sortStrings (selectAmzNames l2) ∧
    canonicalAmzHeaders
        { method := m, host := host, url := { path := pa, rawQuery := q },
          header := buildSetHeaders l1 } =
      canonicalAmzHeaders
        { method := m, host := host, url := { path := pa, rawQuery := q },
          header := buildSetHeaders l2 } := by
  constructor
  · rw [selectAmz_congr hcase]
  · rw [buildSet_congr hcase]

/-- C9 amended witness: concrete instance with names X-Amz-Meta-Foo and
x-AMZ-meta-FOO carrying the same value. -/
theorem c9_amended_casing_witness :
    namesCaseEqB [(gs "X-Amz-Meta-Foo", gs "v")]
        [(gs "x-AMZ-meta-FOO", gs "v")] = true ∧
    (sortStrings (selectAmzNames [(gs "X-Amz-Meta-Foo", gs "v")]) =
        sortStrings (selectAmzNames [(gs "x-AMZ-meta-FOO", gs "v")]) ∧
      canonicalAmzHeaders
          { method := gs "GET", host := gs "example.com",
            url := { path := gs "/", rawQuery := [] },
            header := buildSetHeaders [(gs "X-Amz-Meta-Foo", gs "v")] } =
        canonicalAmzHeaders
          { method := gs "GET", host := gs "example.com",
            url := { path := gs "/", rawQuery := [] },
            header := buildSetHeaders [(gs "x-AMZ-meta-FOO", gs "v")] }) :=
  ⟨by decide,
    c9_amended_casing (gs "GET") (gs "example.com") (gs "/") []
      [(gs "X-Amz-Meta-Foo", gs "v")] [(gs "x-AMZ-meta-FOO", gs "v")]
      (by decide)⟩
